import Mathlib

/-!
Verification model of the sntvm interpreter (src/src/main.rs): a toy
scripting language with a speculative-branch / generation-counted-merge
model for variable mutation.  Pure parts of the Rust program are embedded
as Lean functions; the stateful executor is embedded as explicit state
passing over an `ExecState`.  Rust `HashMap`s are modelled as association
lists (`setKV` mirrors `HashMap::insert`: replace in place or append);
Rust `HashSet<Value>` payloads are modelled as duplicate-free lists with
the set-equality the derived `PartialEq` gives `HashSet`.  `f64` is
represented by its IEEE-754 bit pattern (the code compares and hashes
floats exclusively through `f64::to_bits`).
-/

/-- Value (main.rs 27-35): the tagged union of runtime values.
`float` carries the `f64` bit pattern (`to_bits`); `set` carries the
`HashSet` elements as a list. -/
inductive Value where
  | int (i : Int)
  | float (bits : Nat)
  | bool (b : Bool)
  | str (s : String)
  | list (elems : List Value)
  | set (elems : List Value)
deriving Repr

mutual

/-- Structural equality on values, mirroring the derived `PartialEq` for
`Value` (main.rs 27): all variants compare componentwise except `Set`,
where `HashSet::eq` holds iff the lengths agree and every element of the
left set occurs (by `Value` equality) in the right set.  `Float` compares
bit patterns (main.rs 14-18). -/
def veq : Value → Value → Bool
  | .int a, .int b => a == b
  | .float a, .float b => a == b
  | .bool a, .bool b => a == b
  | .str a, .str b => a == b
  | .list a, .list b => veqList a b
  | .set a, .set b => Nat.beq a.length b.length && allMem a b
  | _, _ => false

/-- Elementwise (order-sensitive) equality of the payloads of two `List`
values, as the derived `PartialEq` on `Vec<Value>` computes it. -/
def veqList : List Value → List Value → Bool
  | [], [] => true
  | x :: xs, y :: ys => veq x y && veqList xs ys
  | _, _ => false

/-- Containment half of `HashSet::eq`: every element of the first list
has a `veq`-equal element in the second. -/
def allMem : List Value → List Value → Bool
  | [], _ => true
  | x :: xs, b => anyMem x b && allMem xs b

/-- Membership by `Value` equality, modelling `HashSet::contains`. -/
def anyMem : Value → List Value → Bool
  | _, [] => false
  | x, y :: ys => veq x y || anyMem x ys

end

/-- Two's-complement word an `i32` contributes to the hash stream
(`i.hash(state)` writes the 32-bit value, main.rs 40). -/
def intEnc (i : Int) : Nat := (i % 4294967296).toNat

/-- Words a `&str` contributes to the hash stream: its bytes followed by
the `0xff` terminator Rust's `str` hashing appends (main.rs 43). -/
def strEnc (s : String) : List Nat := (s.data.map Char.toNat) ++ [255]

/-- Model of `DefaultHasher`'s `finish`: SipHash itself is opaque, but
its output is a deterministic function of the word stream written into
the hasher, which is all the equality/hash contract depends on; we model
it by an FNV-style fold over the stream. -/
def hfinish (l : List Nat) : Nat :=
  l.foldl (fun a x => (a * 1099511628211 + x) % 18446744073709551616) 14695981039346656037

mutual

/-- Hash input stream of a value, mirroring `impl Hash for Value`
(main.rs 37-60): ints, float bit patterns, bools and string bytes are
written directly; a `List` writes each element's stream in order (no
length prefix); a `Set` writes the single `u64` obtained by XOR-folding
each element's independent `DefaultHasher` output (main.rs 49-56). -/
def hstream : Value → List Nat
  | .int i => [intEnc i]
  | .float bits => [bits]
  | .bool b => [cond b 1 0]
  | .str s => strEnc s
  | .list vs => hstreamList vs
  | .set vs => [setAcc vs]

/-- Concatenated element streams of a `List` value's payload. -/
def hstreamList : List Value → List Nat
  | [] => []
  | v :: vs => hstream v ++ hstreamList vs

/-- XOR fold of the elements' independent hashes, as computed for a `Set`
value (main.rs 50-55); XOR is commutative, so the `HashSet` iteration
order cannot affect it. -/
def setAcc : List Value → Nat
  | [] => 0
  | v :: vs => Nat.xor (hfinish (hstream v)) (setAcc vs)

end

/-- Hash of a value: the hasher output on its stream. -/
def hashV (v : Value) : Nat := hfinish (hstream v)

/-- Duplicate-freeness of a set payload with respect to `Value`
equality: the invariant every Rust `HashSet<Value>` maintains. -/
def nodupBy : List Value → Bool
  | [] => true
  | x :: xs => !(anyMem x xs) && nodupBy xs

mutual

/-- Wellformedness of a value: every `set` payload anywhere inside it is
duplicate-free.  Every value a Rust execution constructs satisfies this,
because `HashSet` deduplicates on insertion. -/
def WF : Value → Bool
  | .int _ => true
  | .float _ => true
  | .bool _ => true
  | .str _ => true
  | .list vs => WFList vs
  | .set vs => nodupBy vs && WFList vs

/-- Wellformedness of every value in a list. -/
def WFList : List Value → Bool
  | [] => true
  | v :: vs => WF v && WFList vs

end

/-- Association-list update modelling `HashMap::insert`: replace the
binding in place if the key is present, append otherwise. -/
def setKV {α : Type} (k : String) (v : α) : List (String × α) → List (String × α)
  | [] => [(k, v)]
  | (k', v') :: rest => if k = k' then (k, v) :: rest else (k', v') :: setKV k v rest

/-- Association-list lookup modelling `HashMap::get`. -/
def getKV {α : Type} (k : String) : List (String × α) → Option α
  | [] => none
  | (k', v') :: rest => if k = k' then some v' else getKV k rest

/-- Association-list removal modelling `HashMap::remove` (the value is
looked up separately with `getKV`). -/
def removeKV {α : Type} (k : String) : List (String × α) → List (String × α)
  | [] => []
  | (k', v') :: rest => if k = k' then rest else (k', v') :: removeKV k rest

/-- World (main.rs 63-67): the shared namespace of variable bindings and
per-variable generation counters. -/
structure World where
  vars : List (String × Value)
  generation : List (String × Nat)
deriving Repr

/-- Current generation of a variable, defaulting to 0 for unseen names
(`World::get_gen`, main.rs 76-78). -/
def World.get_gen (w : World) (v : String) : Nat :=
  (getKV v w.generation).getD 0

/-- Advance a variable's generation by one, creating it if absent
(`World::inc_gen`, main.rs 79-81). -/
def World.inc_gen (w : World) (v : String) : World :=
  { w with generation := setKV v (w.get_gen v + 1) w.generation }

/-- Branch (main.rs 86-91): a speculative change record.  `bvar` models
the Rust field `variable` (a Lean keyword). -/
inductive Branch where
  | mk (bvar : String) (delta : Option Value) (generation : Nat)
      (nested : List Branch)
deriving Repr

/-- Watched variable of a branch (Rust field `variable`). -/
def Branch.bvar : Branch → String
  | .mk v _ _ _ => v

/-- Pending replacement value of a branch. -/
def Branch.delta : Branch → Option Value
  | .mk _ d _ _ => d

/-- Generation snapshot taken when the branch was opened. -/
def Branch.generation : Branch → Nat
  | .mk _ _ g _ => g

/-- Child branches collected while the branch's body executed. -/
def Branch.nested : Branch → List Branch
  | .mk _ _ _ n => n

mutual

/-- Merge protocol (`Branch::merge`, main.rs 102-113): if the watched
variable's generation no longer matches the snapshot the branch is stale
and the world is returned untouched; otherwise the delta (if any) is
written, the generation advanced unconditionally, and the nested branches
merged in order. -/
def Branch.merge : Branch → World → World
  | .mk v delta gen nested, w =>
    if w.get_gen v ≠ gen then w
    else
      let w1 := match delta with
        | some val => { w with vars := setKV v val w.vars }
        | none => w
      mergeList nested (w1.inc_gen v)

/-- Sequential merge of a list of branches (the `for nested in
self.nested` loop of main.rs 110-112). -/
def mergeList : List Branch → World → World
  | [], w => w
  | b :: bs, w => mergeList bs (b.merge w)

end

/-- Print targets (main.rs 118-121): `targetVar` models `Variable`,
`targetVal` models `Value`. -/
inductive PrintTarget where
  | targetVar (name : String)
  | targetVal (v : Value)
deriving Repr

/-- AST statements (main.rs 124-151), constructor names suffixed to
avoid Lean keywords. -/
inductive ASTNode where
  | letS (name : String) (value : Value)
  | branchS (bvar : String) (body : List ASTNode)
  | mergeS (bvar : String)
  | printS (target : PrintTarget)
  | inputS (prompt : Option String) (bvar : String)
  | listPush (bvar : String) (value : Value)
  | setInsert (bvar : String) (value : Value)
deriving Repr

/-- Observable terminal output events (`println!`/`print!` calls of the
executor, abstracted from their textual formatting). -/
inductive OutEvent where
  | printedVal (v : Value)
  | printedUndef (name : String)
  | prompted (msg : String)
deriving Repr

/-- Interpreter state: the world, the registry of open branches
(`branches: HashMap<String, Branch>` of main.rs 414, as an association
list; `HashMap` iteration order is unspecified, the model fixes list
order), the pending input lines and the emitted output events. -/
structure ExecState where
  world : World
  branches : List (String × Branch)
  input : List String
  output : List OutEvent
deriving Repr

/-- `HashSet::insert` on a set payload: no-op when an equal element is
already present, append otherwise (main.rs 468). -/
def insertElem (val : Value) (l : List Value) : List Value :=
  if anyMem val l then l else l ++ [val]

mutual

/-- Single-statement step of the executor (the `match node` arms of
`execute_ast`, main.rs 416-474).  The `branchS` arm snapshots the
generation, runs the body against the shared state, then moves every
branch still registered into `nested` (`branches.drain()`, main.rs 424)
and registers the new branch as the only entry. -/
def execNode : ASTNode → ExecState → ExecState
  | .letS name value, s =>
    { s with world := { s.world with vars := setKV name value s.world.vars } }
  | .branchS v body, s =>
    let g := s.world.get_gen v
    let s1 := execute_ast body s
    let b : Branch := .mk v none g (s1.branches.map Prod.snd)
    { s1 with branches := [(v, b)] }
  | .mergeS v, s =>
    match getKV v s.branches with
    | some b => { s with world := b.merge s.world,
                         branches := removeKV v s.branches }
    | none => s
  | .printS (.targetVar name), s =>
    match getKV name s.world.vars with
    | some val => { s with output := s.output ++ [.printedVal val] }
    | none => { s with output := s.output ++ [.printedUndef name] }
  | .printS (.targetVal val), s =>
    { s with output := s.output ++ [.printedVal val] }
  | .inputS prompt v, s =>
    let s0 : ExecState := match prompt with
      | some msg => { s with output := s.output ++ [.prompted msg] }
      | none => s
    let line := (s0.input.headD "").trim
    { s0 with input := s0.input.tail,
              world := { s0.world with vars := setKV v (.str line) s0.world.vars } }
  | .listPush v val, s =>
    match getKV v s.world.vars with
    | some (.list l) =>
      { s with world := { s.world with vars := setKV v (.list (l ++ [val])) s.world.vars } }
    | _ => s
  | .setInsert v val, s =>
    match getKV v s.world.vars with
    | some (.set l) =>
      { s with world := { s.world with vars := setKV v (.set (insertElem val l)) s.world.vars } }
    | _ => s

/-- Statement-list executor (`execute_ast`, main.rs 414-476): fold the
single-statement step over the program in order. -/
def execute_ast : List ASTNode → ExecState → ExecState
  | [], s => s
  | n :: rest, s => execute_ast rest (execNode n s)

end

/-- Fresh initial state (`World::new` plus empty branch registry) with a
given input script. -/
def initState (inp : List String) : ExecState :=
  { world := { vars := [], generation := [] }, branches := [], input := inp, output := [] }

mutual

/-- A branch tree whose every node has `delta = none`: the shape of
every branch `execute_ast` ever constructs (`Branch::new(variable, None,
generation)` at main.rs 422 is its only constructor call). -/
def deltaNoneTree : Branch → Bool
  | .mk _ d _ nested => d.isNone && deltaNoneList nested

/-- `deltaNoneTree` for every branch in a list. -/
def deltaNoneList : List Branch → Bool
  | [] => true
  | b :: bs => deltaNoneTree b && deltaNoneList bs

end

/-- Every branch registered in a branch map has `delta = none`
throughout its tree. -/
def branchesOK : List (String × Branch) → Bool
  | [] => true
  | (_, b) :: rest => deltaNoneTree b && branchesOK rest

mutual

/-- Every node of the branch tree that watches `x` carries a generation
snapshot at most `g`: the staleness guard making a branch tree harmless
for `x` once `x`'s generation exceeds `g`. -/
def guardBelow (x : String) (g : Nat) : Branch → Bool
  | .mk v _ gen nested => (v != x || Nat.ble gen g) && guardList x g nested

/-- `guardBelow` for every branch in a list. -/
def guardList (x : String) (g : Nat) : List Branch → Bool
  | [] => true
  | b :: bs => guardBelow x g b && guardList x g bs

end

/-- Looking up the key just written returns the written value. -/
theorem getKV_setKV_self {α : Type} (k : String) (v : α) (l : List (String × α)) :
    getKV k (setKV k v l) = some v := by
  induction l with
  | nil => simp [setKV, getKV]
  | cons p rest ih =>
    obtain ⟨k', v'⟩ := p
    by_cases h : k = k' <;> simp [setKV, getKV, h, ih]

/-- Writing one key leaves every other key's binding unchanged. -/
theorem getKV_setKV_other {α : Type} {k k' : String} (v : α) (l : List (String × α))
    (h : k ≠ k') : getKV k (setKV k' v l) = getKV k l := by
  induction l with
  | nil => simp [setKV, getKV, h]
  | cons p rest ih =>
    obtain ⟨k'', v''⟩ := p
    by_cases h2 : k' = k'' <;> by_cases h3 : k = k'' <;>
      simp_all [setKV, getKV]

/-- Advancing a variable's generation increments exactly it. -/
theorem get_gen_inc_self (w : World) (v : String) :
    (w.inc_gen v).get_gen v = w.get_gen v + 1 := by
  simp [World.inc_gen, World.get_gen, getKV_setKV_self]

/-- Advancing one variable's generation leaves the others unchanged. -/
theorem get_gen_inc_other (w : World) {v x : String} (h : x ≠ v) :
    (w.inc_gen v).get_gen x = w.get_gen x := by
  simp [World.inc_gen, World.get_gen, getKV_setKV_other _ _ h]

/-- Advancing a generation does not touch the variable bindings. -/
theorem inc_gen_vars (w : World) (v : String) : (w.inc_gen v).vars = w.vars := rfl

/-- A stale branch merges to the unchanged world (`Branch::merge`
returns immediately on generation mismatch, main.rs 103-105). -/
theorem merge_stale_eq (b : Branch) (w : World) (h : w.get_gen b.bvar ≠ b.generation) :
    b.merge w = w := by
  obtain ⟨v, d, g, ns⟩ := b
  simp only [Branch.bvar, Branch.generation] at h
  simp [Branch.merge, h]

/-- Changing only the bindings of a world leaves every generation
untouched. -/
theorem get_gen_set_vars (w : World) (u : List (String × Value)) (y : String) :
    ({ w with vars := u } : World).get_gen y = w.get_gen y := rfl

/-- One `inc_gen` can only keep or raise any generation. -/
theorem get_gen_le_inc (w : World) (v x : String) :
    w.get_gen x ≤ (w.inc_gen v).get_gen x := by
  by_cases h : x = v
  · subst h; simp [get_gen_inc_self]
  · simp [get_gen_inc_other w h]

mutual

/-- Merging a branch never lowers any variable's generation. -/
theorem merge_gen_mono : ∀ (b : Branch) (w : World) (x : String),
    w.get_gen x ≤ (b.merge w).get_gen x
  | .mk v d g ns, w, x => by
    by_cases h : w.get_gen v ≠ g
    · simp [Branch.merge, h]
    · cases d with
      | none =>
        simp only [Branch.merge, h, if_false]
        exact le_trans (get_gen_le_inc w v x) (mergeList_gen_mono ns _ x)
      | some val =>
        simp only [Branch.merge, h, if_false]
        have h1 : w.get_gen x ≤ (({ w with vars := setKV v val w.vars } : World).inc_gen v).get_gen x := by
          have := get_gen_le_inc ({ w with vars := setKV v val w.vars } : World) v x
          simpa [get_gen_set_vars] using this
        exact le_trans h1 (mergeList_gen_mono ns _ x)

/-- Merging a list of branches never lowers any variable's generation. -/
theorem mergeList_gen_mono : ∀ (bs : List Branch) (w : World) (x : String),
    w.get_gen x ≤ (mergeList bs w).get_gen x
  | [], _, _ => le_refl _
  | b :: bs, w, x =>
    le_trans (merge_gen_mono b w x) (mergeList_gen_mono bs (b.merge w) x)

end

mutual

/-- Merging a branch whose whole tree has `delta = none` never changes
any variable binding: only generations move. -/
theorem merge_vars_deltaNone : ∀ (b : Branch) (w : World),
    deltaNoneTree b = true → (b.merge w).vars = w.vars
  | .mk v d g ns, w, hd => by
    by_cases h : w.get_gen v ≠ g
    · simp [Branch.merge, h]
    · simp only [deltaNoneTree, Bool.and_eq_true, Option.isNone_iff_eq_none] at hd
      obtain ⟨hnone, hns⟩ := hd
      subst hnone
      simp only [Branch.merge, h, if_false]
      rw [mergeList_vars_deltaNone ns _ hns]
      rfl

/-- List version of `merge_vars_deltaNone`. -/
theorem mergeList_vars_deltaNone : ∀ (bs : List Branch) (w : World),
    deltaNoneList bs = true → (mergeList bs w).vars = w.vars
  | [], _, _ => rfl
  | b :: bs, w, hd => by
    simp only [deltaNoneList, Bool.and_eq_true] at hd
    rw [mergeList, mergeList_vars_deltaNone bs _ hd.2, merge_vars_deltaNone b w hd.1]

end

mutual

/-- If every node of a branch tree watching `x` snapshotted a generation
at most `G`, and `x`'s current generation already exceeds `G`, merging
the tree neither rebinds `x` nor moves `x`'s generation: every such node
fails the staleness check when reached. -/
theorem merge_preserve : ∀ (b : Branch) (w : World) (x : String) (G : Nat),
    guardBelow x G b = true → G < w.get_gen x →
    getKV x (b.merge w).vars = getKV x w.vars ∧ (b.merge w).get_gen x = w.get_gen x
  | .mk v d g ns, w, x, G, hguard, hlt => by
    simp only [guardBelow, Bool.and_eq_true, Bool.or_eq_true, bne_iff_ne, ne_eq,
      decide_eq_true_eq] at hguard
    obtain ⟨hhead, hns⟩ := hguard
    by_cases hst : w.get_gen v ≠ g
    · simp [Branch.merge, hst]
    · push_neg at hst
      by_cases hvx : v = x
      · subst hvx
        rcases hhead with hne | hble
        · exact absurd (rfl : v = v) hne
        · have hgG : g ≤ G := Nat.le_of_ble_eq_true hble
          omega
      · have hxv : x ≠ v := fun h => hvx h.symm
        cases d with
        | none =>
          simp only [Branch.merge, hst, ne_eq, not_true_eq_false, if_false]
          have hvars : (w.inc_gen v).vars = w.vars := rfl
          have hgen : (w.inc_gen v).get_gen x = w.get_gen x := get_gen_inc_other w hxv
          have := mergeList_preserve ns (w.inc_gen v) x G hns (by omega)
          rw [hvars, hgen] at this
          exact this
        | some val =>
          simp only [Branch.merge, hst, ne_eq, not_true_eq_false, if_false]
          have hvars : getKV x (({ w with vars := setKV v val w.vars } : World).inc_gen v).vars
              = getKV x w.vars := by
            show getKV x (setKV v val w.vars) = getKV x w.vars
            exact getKV_setKV_other val w.vars hxv
          have hgen : (({ w with vars := setKV v val w.vars } : World).inc_gen v).get_gen x
              = w.get_gen x := by
            rw [get_gen_inc_other _ hxv, get_gen_set_vars]
          have := mergeList_preserve ns (({ w with vars := setKV v val w.vars } : World).inc_gen v)
            x G hns (by omega)
          rw [hvars, hgen] at this
          exact this

/-- List version of `merge_preserve`. -/
theorem mergeList_preserve : ∀ (bs : List Branch) (w : World) (x : String) (G : Nat),
    guardList x G bs = true → G < w.get_gen x →
    getKV x (mergeList bs w).vars = getKV x w.vars ∧ (mergeList bs w).get_gen x = w.get_gen x
  | [], _, _, _, _, _ => ⟨rfl, rfl⟩
  | b :: bs, w, x, G, hguard, hlt => by
    simp only [guardList, Bool.and_eq_true] at hguard
    have h1 := merge_preserve b w x G hguard.1 hlt
    have h2 := mergeList_preserve bs (b.merge w) x G hguard.2 (by omega)
    rw [mergeList]
    exact ⟨h1.1 ▸ h2.1, h1.2 ▸ h2.2⟩

end

/-- C1: Fresh merge applies — if at merge time the watched variable's
generation still equals the branch's snapshot (no generation-advancing
commit on it intervened since the branch opened), and every nested
branch watching the same variable carries a snapshot no newer than the
branch's own (which execution guarantees, since their snapshots were
taken while the generation was unchanged), then the merge binds the
delta value (when present) to the variable and leaves its generation at
exactly one more than the snapshot; the generation advances even when
the delta is absent. -/
theorem C1_merge_fresh_applies (v : String) (d : Option Value) (g : Nat)
    (ns : List Branch) (w : World) (X : Value)
    (hfresh : w.get_gen v = g) (hns : guardList v g ns = true) :
    (d = some X → getKV v ((Branch.mk v d g ns).merge w).vars = some X) ∧
    ((Branch.mk v d g ns).merge w).get_gen v = g + 1 := by
  have hst : ¬ (w.get_gen v ≠ g) := by simp [hfresh]
  cases d with
  | none =>
    simp only [Branch.merge, hst, if_false]
    have hgen : (w.inc_gen v).get_gen v = g + 1 := by rw [get_gen_inc_self, hfresh]
    have hpres := mergeList_preserve ns (w.inc_gen v) v g hns (by omega)
    constructor
    · intro h; exact Option.noConfusion h
    · rw [hpres.2, hgen]
  | some val =>
    simp only [Branch.merge, hst, if_false]
    have hgen : (({ w with vars := setKV v val w.vars } : World).inc_gen v).get_gen v
        = g + 1 := by
      rw [get_gen_inc_self, get_gen_set_vars, hfresh]
    have hpres := mergeList_preserve ns
      (({ w with vars := setKV v val w.vars } : World).inc_gen v) v g hns (by omega)
    constructor
    · intro h
      injection h with hX
      subst hX
      rw [hpres.1]
      exact getKV_setKV_self v val w.vars
    · rw [hpres.2, hgen]

/-- Concrete instance of `C1_merge_fresh_applies`: a fresh branch with a
pending value, a stale same-variable child and an other-variable child. -/
theorem C1_merge_fresh_applies_witness :
    (World.mk [("x", Value.int 7)] []).get_gen "x" = 0 ∧
    guardList "x" 0 [Branch.mk "x" none 0 [], Branch.mk "y" none 0 []] = true ∧
    getKV "x" ((Branch.mk "x" (some (Value.int 42)) 0
        [Branch.mk "x" none 0 [], Branch.mk "y" none 0 []]).merge
        (World.mk [("x", Value.int 7)] [])).vars = some (Value.int 42) ∧
    ((Branch.mk "x" (some (Value.int 42)) 0
        [Branch.mk "x" none 0 [], Branch.mk "y" none 0 []]).merge
        (World.mk [("x", Value.int 7)] [])).get_gen "x" = 1 :=
  ⟨rfl, by decide,
   (C1_merge_fresh_applies "x" (some (Value.int 42)) 0
      [Branch.mk "x" none 0 [], Branch.mk "y" none 0 []]
      (World.mk [("x", Value.int 7)] []) (Value.int 42) rfl (by decide)).1 rfl,
   (C1_merge_fresh_applies "x" (some (Value.int 42)) 0
      [Branch.mk "x" none 0 [], Branch.mk "y" none 0 []]
      (World.mk [("x", Value.int 7)] []) (Value.int 42) rfl (by decide)).2⟩

/-- C2: Stale merge is an atomic silent no-op — whenever the watched
variable's generation differs from the branch's snapshot, merging
returns a world equal to the input in every binding and every
generation counter, applies none of the nested branches, and signals no
error (`Branch::merge` is total and returns immediately). -/
theorem C2_merge_stale_noop (b : Branch) (w : World)
    (h : w.get_gen b.bvar ≠ b.generation) : b.merge w = w :=
  merge_stale_eq b w h

/-- Concrete instance of `C2_merge_stale_noop`: generation 5 against
snapshot 3, with a pending delta and a fresh nested child, all dropped. -/
theorem C2_merge_stale_noop_witness :
    (World.mk [("x", Value.int 7)] [("x", 5)]).get_gen
        (Branch.mk "x" (some (Value.int 5)) 3 [Branch.mk "y" none 0 []]).bvar
      ≠ (Branch.mk "x" (some (Value.int 5)) 3 [Branch.mk "y" none 0 []]).generation ∧
    (Branch.mk "x" (some (Value.int 5)) 3 [Branch.mk "y" none 0 []]).merge
        (World.mk [("x", Value.int 7)] [("x", 5)])
      = World.mk [("x", Value.int 7)] [("x", 5)] :=
  ⟨by decide, C2_merge_stale_noop _ _ (by decide)⟩

/-- Merging a list of branches is the left fold of single merges. -/
theorem mergeList_eq_foldl (bs : List Branch) (w : World) :
    mergeList bs w = bs.foldl (fun wa cb => cb.merge wa) w := by
  induction bs generalizing w with
  | nil => rfl
  | cons b bs ih => rw [mergeList, List.foldl_cons, ih]

/-- C3 counterexample: the claim says exactly the branches opened inside
a Branch statement's body become its children.  In the program
`branch y { } branch x { } merge x;` the body of `branch x` is empty,
yet `branches.drain()` (main.rs 424) sweeps the still-registered branch
on `y` — opened before and outside that body — into `x`'s `nested`
list, and merging `x` consequently advances `y`'s generation to 1. -/
theorem C3_nested_collection_cex :
    (execute_ast [.branchS "y" [], .branchS "x" []] (initState [])).branches
      = [("x", Branch.mk "x" none 0 [Branch.mk "y" none 0 []])] ∧
    (execute_ast [.branchS "y" [], .branchS "x" [], .mergeS "x"]
        (initState [])).world.get_gen "y" = 1 :=
  ⟨rfl, rfl⟩

/-- C3 (amended): a Branch statement's children are all branches still
registered at the end of its body — those opened in the body and not
merged there, together with any unmerged branches registered before the
statement — in the registry order (the model fixes the `HashMap::drain`
order as the association-list order); the statement's world is the
body's world; a merge processes the children sequentially in that order
as a left fold, and a stale child (checked against the world its merge
receives, independently per child) is dropped without any effect. -/
theorem C3_nested_collection_amended (v : String) (body : List ASTNode)
    (s : ExecState) (bs : List Branch) (w : World) (c : Branch) :
    (execNode (.branchS v body) s).branches
      = [(v, Branch.mk v none (s.world.get_gen v)
            ((execute_ast body s).branches.map Prod.snd))] ∧
    (execNode (.branchS v body) s).world = (execute_ast body s).world ∧
    mergeList bs w = bs.foldl (fun wa cb => cb.merge wa) w ∧
    (w.get_gen c.bvar ≠ c.generation → c.merge w = w) :=
  ⟨rfl, rfl, mergeList_eq_foldl bs w, fun h => merge_stale_eq c w h⟩

/-- Concrete instance of `C3_nested_collection_amended`, with the stale
hypothesis of the last conjunct discharged at generation 2 against
snapshot 0. -/
theorem C3_nested_collection_amended_witness :
    (execNode (.branchS "x" []) (initState [])).branches
      = [("x", Branch.mk "x" none 0 [])] ∧
    mergeList [Branch.mk "y" none 0 []] (World.mk [] [("z", 2)])
      = [Branch.mk "y" none 0 []].foldl (fun wa cb => cb.merge wa)
          (World.mk [] [("z", 2)]) ∧
    (World.mk [] [("z", 2)]).get_gen (Branch.mk "z" none 0 []).bvar
      ≠ (Branch.mk "z" none 0 []).generation ∧
    (Branch.mk "z" none 0 []).merge (World.mk [] [("z", 2)])
      = World.mk [] [("z", 2)] :=
  have h := C3_nested_collection_amended "x" [] (initState [])
    [Branch.mk "y" none 0 []] (World.mk [] [("z", 2)]) (Branch.mk "z" none 0 [])
  ⟨h.1, h.2.2.1, by decide, h.2.2.2 (by decide)⟩

/-- C4 counterexample: in
`let x = 1; branch x { let x = 2; } merge x;` the binding of `x`
immediately before the merge statement is `Int(2)`, not `Int(1)` as
claimed: the `let` inside the branch body commits directly to the
shared world (main.rs 417-419). -/
theorem C4_scenario_cex :
    getKV "x" (execute_ast [.letS "x" (.int 1), .branchS "x" [.letS "x" (.int 2)]]
        (initState [])).world.vars = some (Value.int 2) ∧
    getKV "x" (execute_ast [.letS "x" (.int 1), .branchS "x" [.letS "x" (.int 2)]]
        (initState [])).world.vars ≠ some (Value.int 1) := by
  refine ⟨rfl, fun hc => ?hne⟩
  have h1 : getKV "x" (execute_ast [.letS "x" (.int 1), .branchS "x" [.letS "x" (.int 2)]]
      (initState [])).world.vars = some (Value.int 2) := rfl
  rw [h1] at hc
  injection hc with h2
  injection h2 with h3
  exact absurd h3 (by decide)

/-- C4 (amended): in
`let x = 1; branch x { let x = 2; } merge x;` the binding of `x` is
already `Int(2)` immediately before the merge (the body's `let` commits
directly to the shared world); after the merge, `x` is still bound to
`Int(2)` and its generation is exactly 1 (the merge is fresh and its
delta is absent, so it only advances the generation). -/
theorem C4_scenario_amended :
    getKV "x" (execute_ast [.letS "x" (.int 1), .branchS "x" [.letS "x" (.int 2)]]
        (initState [])).world.vars = some (Value.int 2) ∧
    getKV "x" (execute_ast [.letS "x" (.int 1), .branchS "x" [.letS "x" (.int 2)],
        .mergeS "x"] (initState [])).world.vars = some (Value.int 2) ∧
    (execute_ast [.letS "x" (.int 1), .branchS "x" [.letS "x" (.int 2)], .mergeS "x"]
        (initState [])).world.get_gen "x" = 1 :=
  ⟨rfl, rfl, rfl⟩

/-- The branches gathered by `branches.drain()` out of a registry whose
trees all have `delta = none` again all have `delta = none`. -/
theorem deltaNoneList_map_of_branchesOK :
    ∀ l : List (String × Branch), branchesOK l = true →
      deltaNoneList (l.map Prod.snd) = true
  | [], _ => rfl
  | (k, b) :: rest, h => by
    simp only [branchesOK, Bool.and_eq_true] at h
    simp only [List.map_cons, deltaNoneList, Bool.and_eq_true]
    exact ⟨h.1, deltaNoneList_map_of_branchesOK rest h.2⟩

/-- Removing a registry entry preserves the all-deltas-none invariant. -/
theorem branchesOK_removeKV (v : String) :
    ∀ l : List (String × Branch), branchesOK l = true →
      branchesOK (removeKV v l) = true
  | [], _ => rfl
  | (k, b) :: rest, h => by
    simp only [branchesOK, Bool.and_eq_true] at h
    by_cases hk : v = k
    · simpa [removeKV, hk] using h.2
    · simp only [removeKV, hk, if_false, branchesOK, Bool.and_eq_true]
      exact ⟨h.1, branchesOK_removeKV v rest h.2⟩

/-- A branch looked up in a registry whose trees all have
`delta = none` has `delta = none` throughout its tree. -/
theorem deltaNoneTree_of_getKV (v : String) (b : Branch) :
    ∀ l : List (String × Branch), getKV v l = some b → branchesOK l = true →
      deltaNoneTree b = true
  | [], hget, _ => by simp [getKV] at hget
  | (k, b') :: rest, hget, h => by
    simp only [branchesOK, Bool.and_eq_true] at h
    by_cases hk : v = k
    · simp only [getKV, hk, if_pos] at hget
      injection hget with hb
      exact hb ▸ h.1
    · simp only [getKV, hk, if_false] at hget
      exact deltaNoneTree_of_getKV v b rest hget h.2

mutual

/-- One executor step keeps every registered branch tree delta-free. -/
theorem execNode_branchesOK : ∀ (n : ASTNode) (s : ExecState),
    branchesOK s.branches = true → branchesOK (execNode n s).branches = true
  | .letS _ _, _, h => h
  | .branchS v body, s, h => by
    have h1 := execute_ast_branchesOK body s h
    show branchesOK [(v, Branch.mk v none (s.world.get_gen v)
        ((execute_ast body s).branches.map Prod.snd))] = true
    simp only [branchesOK, deltaNoneTree, Option.isNone_none, Bool.true_and,
      Bool.and_true]
    exact deltaNoneList_map_of_branchesOK _ h1
  | .mergeS v, s, h => by
    cases hb : getKV v s.branches with
    | none => simpa [execNode, hb] using h
    | some b => simpa [execNode, hb] using branchesOK_removeKV v _ h
  | .printS t, s, h => by
    cases t with
    | targetVar name => cases hg : getKV name s.world.vars <;> simpa [execNode, hg] using h
    | targetVal val => exact h
  | .inputS p v, s, h => by cases p <;> exact h
  | .listPush v val, s, h => by
    cases hg : getKV v s.world.vars with
    | none => simpa [execNode, hg] using h
    | some u => cases u <;> simpa [execNode, hg] using h
  | .setInsert v val, s, h => by
    cases hg : getKV v s.world.vars with
    | none => simpa [execNode, hg] using h
    | some u => cases u <;> simpa [execNode, hg] using h

/-- Executing any statement list keeps every registered branch tree
delta-free. -/
theorem execute_ast_branchesOK : ∀ (ast : List ASTNode) (s : ExecState),
    branchesOK s.branches = true → branchesOK (execute_ast ast s).branches = true
  | [], _, h => h
  | n :: rest, s, h => execute_ast_branchesOK rest (execNode n s) (execNode_branchesOK n s h)

end

/-- Under the delta-free registry invariant, executing a Merge statement
leaves every variable binding unchanged. -/
theorem mergeS_preserves_vars (v : String) (s : ExecState)
    (h : branchesOK s.branches = true) :
    (execNode (.mergeS v) s).world.vars = s.world.vars := by
  cases hb : getKV v s.branches with
  | none => simp [execNode, hb]
  | some b =>
    simp only [execNode, hb]
    exact merge_vars_deltaNone b s.world (deltaNoneTree_of_getKV v b s.branches hb h)

/-- C5: Every Branch record execution constructs has `delta = None`
(`Branch::new(variable, None, generation)` at main.rs 422 is the only
constructor call and `delta` is never assigned afterwards), stated as an
invariant: a registry of delta-free branch trees stays delta-free under
execution of any program, the empty initial registry is delta-free, and
consequently a Merge statement never changes any variable's binding —
merging a delta-free tree can only advance generation counters. -/
theorem C5_merge_never_changes_vars (ast : List ASTNode) (s : ExecState)
    (v : String) (b : Branch) (w : World) (inp : List String)
    (h : branchesOK s.branches = true) :
    branchesOK (initState inp).branches = true ∧
    branchesOK (execute_ast ast s).branches = true ∧
    (execNode (.mergeS v) s).world.vars = s.world.vars ∧
    (deltaNoneTree b = true → (b.merge w).vars = w.vars) :=
  ⟨rfl, execute_ast_branchesOK ast s h, mergeS_preserves_vars v s h,
   fun hd => merge_vars_deltaNone b w hd⟩

/-- Concrete instance of `C5_merge_never_changes_vars`: a program that
opens and merges a branch, run from the initial state; the merged
concrete branch tree is delta-free and leaves the bindings alone. -/
theorem C5_merge_never_changes_vars_witness :
    branchesOK (initState []).branches = true ∧
    branchesOK (execute_ast [.branchS "x" [], .mergeS "x"] (initState [])).branches
      = true ∧
    (execNode (.mergeS "x")
        (execute_ast [.letS "a" (.int 1), .branchS "x" []] (initState []))).world.vars
      = (execute_ast [.letS "a" (.int 1), .branchS "x" []] (initState [])).world.vars ∧
    ((Branch.mk "x" none 0 [Branch.mk "y" none 0 []]).merge
        (World.mk [("a", Value.int 1)] [])).vars
      = (World.mk [("a", Value.int 1)] []).vars :=
  have h1 := C5_merge_never_changes_vars [.branchS "x" [], .mergeS "x"] (initState [])
    "x" (Branch.mk "x" none 0 [Branch.mk "y" none 0 []])
    (World.mk [("a", Value.int 1)] []) [] rfl
  have h2 := C5_merge_never_changes_vars []
    (execute_ast [.letS "a" (.int 1), .branchS "x" []] (initState []))
    "x" (Branch.mk "x" none 0 [Branch.mk "y" none 0 []])
    (World.mk [("a", Value.int 1)] []) [] (by decide)
  ⟨h1.1, h1.2.1, h2.2.2.1, h1.2.2.2 (by decide)⟩

mutual

/-- No executor step ever lowers a variable's generation. -/
theorem execNode_gen_mono : ∀ (n : ASTNode) (s : ExecState) (x : String),
    s.world.get_gen x ≤ (execNode n s).world.get_gen x
  | .letS _ _, s, x => le_refl _
  | .branchS v body, s, x => execute_ast_gen_mono body s x
  | .mergeS v, s, x => by
    cases hb : getKV v s.branches with
    | none => simp [execNode, hb]
    | some b => simpa [execNode, hb] using merge_gen_mono b s.world x
  | .printS t, s, x => by
    cases t with
    | targetVar name => cases hg : getKV name s.world.vars <;> simp [execNode, hg]
    | targetVal val => exact le_refl _
  | .inputS p v, s, x => by cases p <;> exact le_refl _
  | .listPush v val, s, x => by
    cases hg : getKV v s.world.vars with
    | none => simp [execNode, hg]
    | some u => cases u <;> simp [execNode, hg, World.get_gen]
  | .setInsert v val, s, x => by
    cases hg : getKV v s.world.vars with
    | none => simp [execNode, hg]
    | some u => cases u <;> simp [execNode, hg, World.get_gen]

/-- Executing any statement list never lowers a variable's generation. -/
theorem execute_ast_gen_mono : ∀ (ast : List ASTNode) (s : ExecState) (x : String),
    s.world.get_gen x ≤ (execute_ast ast s).world.get_gen x
  | [], _, _ => le_refl _
  | n :: rest, s, x =>
    le_trans (execNode_gen_mono n s x) (execute_ast_gen_mono rest (execNode n s) x)

end

/-- C6: Generations are monotone and advanced only by merge — over any
executed statement list no variable's generation decreases; a Let,
Input, Print, ListPush or SetInsert statement leaves the whole
generation map unchanged; and the merge protocol's `inc_gen` (its only
caller, main.rs 109) raises exactly the merged variable's generation by
exactly 1, leaving every other variable's generation unchanged. -/
theorem C6_generations_monotone (ast : List ASTNode) (s : ExecState) (x : String)
    (name : String) (val : Value) (t : PrintTarget) (p : Option String)
    (w : World) (y : String) (hyx : y ≠ x) :
    s.world.get_gen x ≤ (execute_ast ast s).world.get_gen x ∧
    (execNode (.letS name val) s).world.generation = s.world.generation ∧
    (execNode (.inputS p name) s).world.generation = s.world.generation ∧
    (execNode (.printS t) s).world.generation = s.world.generation ∧
    (execNode (.listPush name val) s).world.generation = s.world.generation ∧
    (execNode (.setInsert name val) s).world.generation = s.world.generation ∧
    (w.inc_gen x).get_gen x = w.get_gen x + 1 ∧
    (w.inc_gen x).get_gen y = w.get_gen y := by
  refine ⟨execute_ast_gen_mono ast s x, rfl, ?input, ?prt, ?lpush, ?sins,
    get_gen_inc_self w x, get_gen_inc_other w hyx⟩
  case input => cases p <;> rfl
  case prt =>
    cases t with
    | targetVar n2 => cases hg : getKV n2 s.world.vars <;> simp [execNode, hg]
    | targetVal v2 => rfl
  case lpush =>
    cases hg : getKV name s.world.vars with
    | none => simp [execNode, hg]
    | some u => cases u <;> simp [execNode, hg]
  case sins =>
    cases hg : getKV name s.world.vars with
    | none => simp [execNode, hg]
    | some u => cases u <;> simp [execNode, hg]

/-- Concrete instance of `C6_generations_monotone` on a program mixing
all statement kinds, with the distinct-variable hypothesis discharged. -/
theorem C6_generations_monotone_witness :
    (initState ["5"]).world.get_gen "a"
      ≤ (execute_ast [.letS "a" (.int 1), .branchS "a" [], .mergeS "a"]
          (initState ["5"])).world.get_gen "a" ∧
    (execNode (.letS "a" (.int 3)) (initState ["5"])).world.generation
      = (initState ["5"]).world.generation ∧
    (execNode (.inputS (some "p") "a") (initState ["5"])).world.generation
      = (initState ["5"]).world.generation ∧
    (execNode (.printS (.targetVar "a")) (initState ["5"])).world.generation
      = (initState ["5"]).world.generation ∧
    (execNode (.listPush "a" (.int 3)) (initState ["5"])).world.generation
      = (initState ["5"]).world.generation ∧
    (execNode (.setInsert "a" (.int 3)) (initState ["5"])).world.generation
      = (initState ["5"]).world.generation ∧
    ((World.mk [] [("a", 4)]).inc_gen "a").get_gen "a"
      = (World.mk [] [("a", 4)]).get_gen "a" + 1 ∧
    ((World.mk [] [("a", 4)]).inc_gen "a").get_gen "b"
      = (World.mk [] [("a", 4)]).get_gen "b" :=
  C6_generations_monotone [.letS "a" (.int 1), .branchS "a" [], .mergeS "a"]
    (initState ["5"]) "a" "a" (.int 3) (.targetVar "a") (some "p")
    (World.mk [] [("a", 4)]) "b" (by decide)

/-- C10: ListPush and SetInsert semantics (main.rs 456-473) — on a
variable that is unbound or bound to a non-List (non-Set) value the
statement is a silent no-op returning the entire state unchanged; on a
variable bound to a List (Set) it rebinds the variable to a freshly
constructed collection built from the old payload plus the new element —
the old payload `l` itself appears unmodified inside the new value
(copy-on-write is inherent in the pure model: `(**l).clone()` then push
or insert) — and the generation map is untouched in every case. -/
theorem C10_collection_ops (v : String) (val : Value) (s : ExecState) :
    ((∀ l, getKV v s.world.vars ≠ some (.list l)) →
      execNode (.listPush v val) s = s) ∧
    ((∀ l, getKV v s.world.vars ≠ some (.set l)) →
      execNode (.setInsert v val) s = s) ∧
    (∀ l, getKV v s.world.vars = some (.list l) →
      execNode (.listPush v val) s
        = { s with world := { s.world with
              vars := setKV v (.list (l ++ [val])) s.world.vars } }) ∧
    (∀ l, getKV v s.world.vars = some (.set l) →
      execNode (.setInsert v val) s
        = { s with world := { s.world with
              vars := setKV v (.set (insertElem val l)) s.world.vars } }) ∧
    (execNode (.listPush v val) s).world.generation = s.world.generation ∧
    (execNode (.setInsert v val) s).world.generation = s.world.generation := by
  refine ⟨?nolist, ?noset, ?yeslist, ?yesset, ?genl, ?gens⟩
  case nolist =>
    intro hno
    cases hg : getKV v s.world.vars with
    | none => simp [execNode, hg]
    | some u =>
      cases u with
      | list l => exact absurd hg (hno l)
      | _ => simp [execNode, hg]
  case noset =>
    intro hno
    cases hg : getKV v s.world.vars with
    | none => simp [execNode, hg]
    | some u =>
      cases u with
      | set l => exact absurd hg (hno l)
      | _ => simp [execNode, hg]
  case yeslist => intro l hl; simp [execNode, hl]
  case yesset => intro l hl; simp [execNode, hl]
  case genl =>
    cases hg : getKV v s.world.vars with
    | none => simp [execNode, hg]
    | some u => cases u <;> simp [execNode, hg]
  case gens =>
    cases hg : getKV v s.world.vars with
    | none => simp [execNode, hg]
    | some u => cases u <;> simp [execNode, hg]

/-- Concrete instance of `C10_collection_ops`: pushing onto an
int-bound variable and inserting into an unbound variable are no-ops;
pushing onto a list-bound and inserting into a set-bound variable
rebind fresh collections; generations never move. -/
theorem C10_collection_ops_witness :
    execNode (.listPush "n" (.int 9))
        (ExecState.mk (World.mk [("xs", Value.list [Value.int 1]),
            ("n", Value.int 5), ("ss", Value.set [Value.int 1])] []) [] [] [])
      = ExecState.mk (World.mk [("xs", Value.list [Value.int 1]),
            ("n", Value.int 5), ("ss", Value.set [Value.int 1])] []) [] [] [] ∧
    execNode (.setInsert "u" (.int 9))
        (ExecState.mk (World.mk [("xs", Value.list [Value.int 1]),
            ("n", Value.int 5), ("ss", Value.set [Value.int 1])] []) [] [] [])
      = ExecState.mk (World.mk [("xs", Value.list [Value.int 1]),
            ("n", Value.int 5), ("ss", Value.set [Value.int 1])] []) [] [] [] ∧
    execNode (.listPush "xs" (.int 9))
        (ExecState.mk (World.mk [("xs", Value.list [Value.int 1]),
            ("n", Value.int 5), ("ss", Value.set [Value.int 1])] []) [] [] [])
      = ExecState.mk (World.mk (setKV "xs" (Value.list ([Value.int 1] ++ [Value.int 9]))
            [("xs", Value.list [Value.int 1]), ("n", Value.int 5),
             ("ss", Value.set [Value.int 1])]) []) [] [] [] ∧
    execNode (.setInsert "ss" (.int 9))
        (ExecState.mk (World.mk [("xs", Value.list [Value.int 1]),
            ("n", Value.int 5), ("ss", Value.set [Value.int 1])] []) [] [] [])
      = ExecState.mk (World.mk (setKV "ss" (Value.set (insertElem (Value.int 9) [Value.int 1]))
            [("xs", Value.list [Value.int 1]), ("n", Value.int 5),
             ("ss", Value.set [Value.int 1])]) []) [] [] [] := by
  refine ⟨?noListArm, ?noSetArm, ?listArm, ?setArm⟩
  case noListArm =>
    refine (C10_collection_ops "n" (.int 9) _).1 ?hypA
    intro l h
    have h0 : getKV "n" (ExecState.mk (World.mk [("xs", Value.list [Value.int 1]),
        ("n", Value.int 5), ("ss", Value.set [Value.int 1])] []) [] [] []).world.vars
        = some (Value.int 5) := rfl
    rw [h0] at h
    injection h with h1
    exact Value.noConfusion h1
  case noSetArm =>
    refine (C10_collection_ops "u" (.int 9) _).2.1 ?hypB
    intro l h
    have h0 : getKV "u" (ExecState.mk (World.mk [("xs", Value.list [Value.int 1]),
        ("n", Value.int 5), ("ss", Value.set [Value.int 1])] []) [] [] []).world.vars
        = none := rfl
    rw [h0] at h
    exact Option.noConfusion h
  case listArm =>
    exact (C10_collection_ops "xs" (.int 9) _).2.2.1 [Value.int 1] rfl
  case setArm =>
    exact (C10_collection_ops "ss" (.int 9) _).2.2.2.1 [Value.int 1] rfl

/-- Membership by value equality survives adding an element in front. -/
theorem anyMem_cons_right (u x : Value) (l : List Value)
    (h : anyMem u l = true) : anyMem u (x :: l) = true := by
  simp [anyMem, h]

/-- Containment survives adding an element to the right-hand list. -/
theorem allMem_cons_right (a : List Value) (x : Value) (l : List Value)
    (h : allMem a l = true) : allMem a (x :: l) = true := by
  induction a with
  | nil => simp [allMem]
  | cons y ys ih =>
    simp only [allMem, Bool.and_eq_true] at h ⊢
    exact ⟨anyMem_cons_right y x l h.1, ih h.2⟩

mutual

/-- Value equality is reflexive. -/
theorem veq_refl : ∀ v : Value, veq v v = true
  | .int _ => by simp [veq]
  | .float _ => by simp [veq]
  | .bool _ => by simp [veq]
  | .str _ => by simp [veq]
  | .list vs => by simp [veq, veqList_refl vs]
  | .set vs => by simp [veq, Nat.beq_refl, allMem_self vs]

/-- Elementwise list equality is reflexive. -/
theorem veqList_refl : ∀ l : List Value, veqList l l = true
  | [] => by simp [veqList]
  | x :: xs => by simp [veqList, veq_refl x, veqList_refl xs]

/-- Every list is contained in itself by value equality. -/
theorem allMem_self : ∀ l : List Value, allMem l l = true
  | [] => by simp [allMem]
  | x :: xs => by
    simp only [allMem, Bool.and_eq_true]
    exact ⟨by simp [anyMem, veq_refl x], allMem_cons_right xs x xs (allMem_self xs)⟩

end

/-- A value equal to some element of a list is a member by `anyMem`. -/
theorem anyMem_of_mem {x u : Value} {l : List Value} (hu : u ∈ l)
    (h : veq x u = true) : anyMem x l = true := by
  induction l with
  | nil => cases hu
  | cons y ys ih =>
    rcases List.mem_cons.mp hu with rfl | hys
    · simp [anyMem, h]
    · simp [anyMem, ih hys]

/-- Containment follows from pointwise membership. -/
theorem allMem_of_forall_mem {l m : List Value}
    (h : ∀ u ∈ l, anyMem u m = true) : allMem l m = true := by
  induction l with
  | nil => simp [allMem]
  | cons y ys ih =>
    simp only [allMem, Bool.and_eq_true]
    exact ⟨h y (List.mem_cons_self y ys), ih fun u hu => h u (List.mem_cons_of_mem y hu)⟩

/-- The XOR fold of element hashes is invariant under permutation of the
payload: the order-independence the Rust code engineers by XOR-folding
independent element hashes (main.rs 49-56). -/
theorem setAcc_perm {a b : List Value} (h : a.Perm b) : setAcc a = setAcc b := by
  induction h with
  | nil => rfl
  | cons x _ ih => simp [setAcc, ih]
  | swap x y l =>
    show hfinish (hstream y) ^^^ (hfinish (hstream x) ^^^ setAcc l)
        = hfinish (hstream x) ^^^ (hfinish (hstream y) ^^^ setAcc l)
    rw [← Nat.xor_assoc, Nat.xor_comm (hfinish (hstream y)) (hfinish (hstream x)),
      Nat.xor_assoc]
  | trans _ _ ih1 ih2 => exact ih1.trans ih2

/-- C8: Float equality is bit-exact — `Float(0.0)` (bits 0) is not equal
to `Float(-0.0)` (bits 0x8000000000000000 = 9223372036854775808); two
floats built from the same NaN bit pattern (0x7ff8000000000000 =
9221120237041090560, the pattern of `f64::NAN`) are equal; and float
hashing feeds exactly the bit pattern to the hasher (main.rs 14-24). -/
theorem C8_float_bit_exact :
    veq (.float 0) (.float 9223372036854775808) = false ∧
    veq (.float 9221120237041090560) (.float 9221120237041090560) = true ∧
    (∀ bits : Nat, hstream (.float bits) = [bits]) ∧
    (∀ bits : Nat, hashV (.float bits) = hfinish [bits]) := by
  refine ⟨by simp [veq], by simp [veq], fun bits => rfl, fun bits => rfl⟩

/-- C9: Set equality and hashing ignore construction order — for any two
payloads that are permutations of each other the `Set` values are equal
and hash identically — while `List` equality is order-sensitive:
reordering `[Int 1, Int 2]` breaks it. -/
theorem C9_set_order_indep (a b : List Value) (h : a.Perm b) :
    veq (.set a) (.set b) = true ∧ hashV (.set a) = hashV (.set b) ∧
    veq (.list [.int 1, .int 2]) (.list [.int 2, .int 1]) = false := by
  refine ⟨?seteq, ?hasheq, ?listne⟩
  case seteq =>
    simp only [veq, Bool.and_eq_true, Nat.beq_eq, h.length_eq, true_and]
    exact allMem_of_forall_mem fun u hu => anyMem_of_mem (h.mem_iff.mp hu) (veq_refl u)
  case hasheq =>
    show hfinish (hstream (.set a)) = hfinish (hstream (.set b))
    simp [hstream, setAcc_perm h]
  case listne => simp [veq, veqList]

/-- Concrete instance of `C9_set_order_indep`: three elements inserted
in two different orders. -/
theorem C9_set_order_indep_witness :
    veq (.set [Value.int 1, Value.int 2, Value.int 3])
        (.set [Value.int 3, Value.int 1, Value.int 2]) = true ∧
    hashV (.set [Value.int 1, Value.int 2, Value.int 3])
      = hashV (.set [Value.int 3, Value.int 1, Value.int 2]) ∧
    veq (.list [.int 1, .int 2]) (.list [.int 2, .int 1]) = false :=
  C9_set_order_indep [Value.int 1, Value.int 2, Value.int 3]
    [Value.int 3, Value.int 1, Value.int 2]
    ((List.Perm.cons (Value.int 1)
        (List.Perm.swap (Value.int 3) (Value.int 2) [])).trans
      (List.Perm.swap (Value.int 3) (Value.int 1) [Value.int 2]))

/-- XOR of naturals is left-commutative. -/
theorem natxor_left_comm (a b c : Nat) :
    Nat.xor a (Nat.xor b c) = Nat.xor b (Nat.xor a c) := by
  show a ^^^ (b ^^^ c) = b ^^^ (a ^^^ c)
  rw [← Nat.xor_assoc, Nat.xor_comm a b, Nat.xor_assoc]

/-- Remove the first element `veq`-equal to `x` from a list, returning
it together with the remainder; `none` when no element matches. -/
def extractMatch (x : Value) : List Value → Option (Value × List Value)
  | [] => none
  | y :: ys =>
    if veq x y then some (y, ys)
    else
      match extractMatch x ys with
      | some (z, rest) => some (z, y :: rest)
      | none => none

/-- A `veq`-member can always be extracted. -/
theorem extractMatch_of_anyMem {x : Value} :
    ∀ {ys : List Value}, anyMem x ys = true →
      ∃ z rest, extractMatch x ys = some (z, rest)
  | [], h => by simp [anyMem] at h
  | y :: ys, h => by
    by_cases hxy : veq x y = true
    · exact ⟨y, ys, by simp [extractMatch, hxy]⟩
    · have h2 : anyMem x ys = true := by
        have := h
        simp only [anyMem, Bool.or_eq_true] at this
        exact this.resolve_left hxy
      obtain ⟨z, rest, hz⟩ := extractMatch_of_anyMem h2
      exact ⟨z, y :: rest, by simp [extractMatch, hxy, hz]⟩

/-- The extracted element matches the probe. -/
theorem extractMatch_veq {x : Value} :
    ∀ {ys : List Value} {z : Value} {rest : List Value},
      extractMatch x ys = some (z, rest) → veq x z = true
  | [], _, _, h => by simp [extractMatch] at h
  | y :: ys, z, rest, h => by
    by_cases hxy : veq x y = true
    · simp only [extractMatch, hxy, if_true] at h
      obtain ⟨hz, _⟩ := Prod.mk.injEq .. ▸ Option.some.inj h
      exact hz ▸ hxy
    · simp only [extractMatch, hxy, if_false] at h
      cases hrec : extractMatch x ys with
      | none => rw [hrec] at h; exact Option.noConfusion h
      | some p =>
        obtain ⟨z', rest'⟩ := p
        rw [hrec] at h
        obtain ⟨hz, _⟩ := Prod.mk.injEq .. ▸ Option.some.inj h
        exact hz ▸ extractMatch_veq hrec

/-- The extracted element was a member of the list. -/
theorem extractMatch_mem {x : Value} :
    ∀ {ys : List Value} {z : Value} {rest : List Value},
      extractMatch x ys = some (z, rest) → z ∈ ys
  | [], _, _, h => by simp [extractMatch] at h
  | y :: ys, z, rest, h => by
    by_cases hxy : veq x y = true
    · simp only [extractMatch, hxy, if_true] at h
      obtain ⟨hz, _⟩ := Prod.mk.injEq .. ▸ Option.some.inj h
      exact hz ▸ List.mem_cons_self y ys
    · simp only [extractMatch, hxy, if_false] at h
      cases hrec : extractMatch x ys with
      | none => rw [hrec] at h; exact Option.noConfusion h
      | some p =>
        obtain ⟨z', rest'⟩ := p
        rw [hrec] at h
        obtain ⟨hz, _⟩ := Prod.mk.injEq .. ▸ Option.some.inj h
        exact List.mem_cons_of_mem y (hz ▸ extractMatch_mem hrec)

/-- Extraction removes exactly one element. -/
theorem extractMatch_len {x : Value} :
    ∀ {ys : List Value} {z : Value} {rest : List Value},
      extractMatch x ys = some (z, rest) → ys.length = rest.length + 1
  | [], _, _, h => by simp [extractMatch] at h
  | y :: ys, z, rest, h => by
    by_cases hxy : veq x y = true
    · simp only [extractMatch, hxy, if_true] at h
      obtain ⟨_, hr⟩ := Prod.mk.injEq .. ▸ Option.some.inj h
      simp [← hr]
    · simp only [extractMatch, hxy, if_false] at h
      cases hrec : extractMatch x ys with
      | none => rw [hrec] at h; exact Option.noConfusion h
      | some p =>
        obtain ⟨z', rest'⟩ := p
        rw [hrec] at h
        obtain ⟨_, hr⟩ := Prod.mk.injEq .. ▸ Option.some.inj h
        have := extractMatch_len hrec
        simp [← hr, List.length_cons, this]

/-- Every remaining element was a member of the original list. -/
theorem extractMatch_sub {x : Value} :
    ∀ {ys : List Value} {z : Value} {rest : List Value},
      extractMatch x ys = some (z, rest) → ∀ u ∈ rest, u ∈ ys
  | [], _, _, h => by simp [extractMatch] at h
  | y :: ys, z, rest, h => by
    by_cases hxy : veq x y = true
    · simp only [extractMatch, hxy, if_true] at h
      obtain ⟨_, hr⟩ := Prod.mk.injEq .. ▸ Option.some.inj h
      exact fun u hu => List.mem_cons_of_mem y (hr ▸ hu)
    · simp only [extractMatch, hxy, if_false] at h
      cases hrec : extractMatch x ys with
      | none => rw [hrec] at h; exact Option.noConfusion h
      | some p =>
        obtain ⟨z', rest'⟩ := p
        rw [hrec] at h
        obtain ⟨_, hr⟩ := Prod.mk.injEq .. ▸ Option.some.inj h
        intro u hu
        rcases List.mem_cons.mp (hr ▸ hu) with rfl | hu'
        · exact List.mem_cons_self u ys
        · exact List.mem_cons_of_mem y (extractMatch_sub hrec u hu')

/-- Every member of the original list is the extracted element or a
member of the remainder. -/
theorem extractMatch_mem_or {x : Value} :
    ∀ {ys : List Value} {z : Value} {rest : List Value},
      extractMatch x ys = some (z, rest) → ∀ u ∈ ys, u = z ∨ u ∈ rest
  | [], _, _, h => by simp [extractMatch] at h
  | y :: ys, z, rest, h => by
    by_cases hxy : veq x y = true
    · simp only [extractMatch, hxy, if_true] at h
      obtain ⟨hz, hr⟩ := Prod.mk.injEq .. ▸ Option.some.inj h
      intro u hu
      rcases List.mem_cons.mp hu with rfl | hu'
      · exact Or.inl hz
      · exact Or.inr (hr ▸ hu')
    · simp only [extractMatch, hxy, if_false] at h
      cases hrec : extractMatch x ys with
      | none => rw [hrec] at h; exact Option.noConfusion h
      | some p =>
        obtain ⟨z', rest'⟩ := p
        rw [hrec] at h
        obtain ⟨hz, hr⟩ := Prod.mk.injEq .. ▸ Option.some.inj h
        intro u hu
        rcases List.mem_cons.mp hu with rfl | hu'
        · exact Or.inr (hr ▸ List.mem_cons_self u rest')
        · rcases extractMatch_mem_or hrec u hu' with h1 | h2
          · exact Or.inl (hz ▸ h1)
          · exact Or.inr (hr ▸ List.mem_cons_of_mem y h2)

/-- A `veq`-member of the original list either matches the extracted
element or remains a `veq`-member of the remainder. -/
theorem extractMatch_anyMem_or {x u : Value} :
    ∀ {ys : List Value} {z : Value} {rest : List Value},
      extractMatch x ys = some (z, rest) → anyMem u ys = true →
      veq u z = true ∨ anyMem u rest = true
  | [], _, _, h, _ => by simp [extractMatch] at h
  | y :: ys, z, rest, h, hmem => by
    simp only [anyMem, Bool.or_eq_true] at hmem
    by_cases hxy : veq x y = true
    · simp only [extractMatch, hxy, if_true] at h
      obtain ⟨hz, hr⟩ := Prod.mk.injEq .. ▸ Option.some.inj h
      rcases hmem with h1 | h2
      · exact Or.inl (hz ▸ h1)
      · exact Or.inr (hr ▸ h2)
    · simp only [extractMatch, hxy, if_false] at h
      cases hrec : extractMatch x ys with
      | none => rw [hrec] at h; exact Option.noConfusion h
      | some p =>
        obtain ⟨z', rest'⟩ := p
        rw [hrec] at h
        obtain ⟨hz, hr⟩ := Prod.mk.injEq .. ▸ Option.some.inj h
        rcases hmem with h1 | h2
        · refine Or.inr (hr ▸ ?memHead)
          simp [anyMem, h1]
        · rcases extractMatch_anyMem_or hrec h2 with h3 | h4
          · exact Or.inl (hz ▸ h3)
          · refine Or.inr (hr ▸ ?memTail)
            simp [anyMem, h4]

/-- A `veq`-member of the remainder was a `veq`-member of the original
list. -/
theorem extractMatch_anyMem_sub {x u : Value} :
    ∀ {ys : List Value} {z : Value} {rest : List Value},
      extractMatch x ys = some (z, rest) → anyMem u rest = true →
      anyMem u ys = true
  | [], _, _, h, _ => by simp [extractMatch] at h
  | y :: ys, z, rest, h, hmem => by
    by_cases hxy : veq x y = true
    · simp only [extractMatch, hxy, if_true] at h
      obtain ⟨_, hr⟩ := Prod.mk.injEq .. ▸ Option.some.inj h
      simp [anyMem, hr ▸ hmem]
    · simp only [extractMatch, hxy, if_false] at h
      cases hrec : extractMatch x ys with
      | none => rw [hrec] at h; exact Option.noConfusion h
      | some p =>
        obtain ⟨z', rest'⟩ := p
        rw [hrec] at h
        obtain ⟨_, hr⟩ := Prod.mk.injEq .. ▸ Option.some.inj h
        have hmem' : anyMem u (y :: rest') = true := hr ▸ hmem
        simp only [anyMem, Bool.or_eq_true] at hmem' ⊢
        rcases hmem' with h1 | h2
        · exact Or.inl h1
        · exact Or.inr (extractMatch_anyMem_sub hrec h2)

/-- Extraction preserves duplicate-freeness of the remainder. -/
theorem extractMatch_nodup {x : Value} :
    ∀ {ys : List Value} {z : Value} {rest : List Value},
      extractMatch x ys = some (z, rest) → nodupBy ys = true →
      nodupBy rest = true
  | [], _, _, h, _ => by simp [extractMatch] at h
  | y :: ys, z, rest, h, hnd => by
    simp only [nodupBy, Bool.and_eq_true, Bool.not_eq_true'] at hnd
    by_cases hxy : veq x y = true
    · simp only [extractMatch, hxy, if_true] at h
      obtain ⟨_, hr⟩ := Prod.mk.injEq .. ▸ Option.some.inj h
      exact hr ▸ hnd.2
    · simp only [extractMatch, hxy, if_false] at h
      cases hrec : extractMatch x ys with
      | none => rw [hrec] at h; exact Option.noConfusion h
      | some p =>
        obtain ⟨z', rest'⟩ := p
        rw [hrec] at h
        obtain ⟨_, hr⟩ := Prod.mk.injEq .. ▸ Option.some.inj h
        have hnd' : nodupBy rest' = true := extractMatch_nodup hrec hnd.2
        have hany : anyMem y rest' = false := by
          cases ham : anyMem y rest' with
          | false => rfl
          | true =>
            have := extractMatch_anyMem_sub hrec ham
            rw [hnd.1] at this
            exact Bool.noConfusion this
        rw [← hr]
        simp [nodupBy, hany, hnd']

/-- Extraction preserves wellformedness of the remaining elements. -/
theorem extractMatch_WF {x : Value} :
    ∀ {ys : List Value} {z : Value} {rest : List Value},
      extractMatch x ys = some (z, rest) → WFList ys = true →
      WFList rest = true
  | [], _, _, h, _ => by simp [extractMatch] at h
  | y :: ys, z, rest, h, hwf => by
    simp only [WFList, Bool.and_eq_true] at hwf
    by_cases hxy : veq x y = true
    · simp only [extractMatch, hxy, if_true] at h
      obtain ⟨_, hr⟩ := Prod.mk.injEq .. ▸ Option.some.inj h
      exact hr ▸ hwf.2
    · simp only [extractMatch, hxy, if_false] at h
      cases hrec : extractMatch x ys with
      | none => rw [hrec] at h; exact Option.noConfusion h
      | some p =>
        obtain ⟨z', rest'⟩ := p
        rw [hrec] at h
        obtain ⟨_, hr⟩ := Prod.mk.injEq .. ▸ Option.some.inj h
        rw [← hr]
        simp [WFList, hwf.1, extractMatch_WF hrec hwf.2]

/-- Extraction splits the XOR fold of element hashes. -/
theorem extractMatch_setAcc {x : Value} :
    ∀ {ys : List Value} {z : Value} {rest : List Value},
      extractMatch x ys = some (z, rest) →
      setAcc ys = Nat.xor (hfinish (hstream z)) (setAcc rest)
  | [], _, _, h => by simp [extractMatch] at h
  | y :: ys, z, rest, h => by
    by_cases hxy : veq x y = true
    · simp only [extractMatch, hxy, if_true] at h
      obtain ⟨hz, hr⟩ := Prod.mk.injEq .. ▸ Option.some.inj h
      rw [← hz, ← hr]
      rfl
    · simp only [extractMatch, hxy, if_false] at h
      cases hrec : extractMatch x ys with
      | none => rw [hrec] at h; exact Option.noConfusion h
      | some p =>
        obtain ⟨z', rest'⟩ := p
        rw [hrec] at h
        obtain ⟨hz, hr⟩ := Prod.mk.injEq .. ▸ Option.some.inj h
        have ih := extractMatch_setAcc hrec
        rw [← hz, ← hr]
        show Nat.xor (hfinish (hstream y)) (setAcc ys)
            = Nat.xor (hfinish (hstream z')) (setAcc (y :: rest'))
        rw [ih]
        show Nat.xor (hfinish (hstream y)) (Nat.xor (hfinish (hstream z')) (setAcc rest'))
            = Nat.xor (hfinish (hstream z')) (Nat.xor (hfinish (hstream y)) (setAcc rest'))
        exact natxor_left_comm _ _ _

/-- Every element of a contained list is a `veq`-member of the
container. -/
theorem allMem_mem {l m : List Value} (h : allMem l m = true) {u : Value}
    (hu : u ∈ l) : anyMem u m = true := by
  induction l with
  | nil => cases hu
  | cons y ys ih =>
    simp only [allMem, Bool.and_eq_true] at h
    rcases List.mem_cons.mp hu with rfl | hu'
    · exact h.1
    · exact ih h.2 hu'

/-- A `veq`-membership yields a structural member that matches. -/
theorem anyMem_exists {u : Value} : ∀ {l : List Value}, anyMem u l = true →
    ∃ y, y ∈ l ∧ veq u y = true
  | [], h => by simp [anyMem] at h
  | y :: ys, h => by
    simp only [anyMem, Bool.or_eq_true] at h
    rcases h with h1 | h2
    · exact ⟨y, List.mem_cons_self y ys, h1⟩
    · obtain ⟨y', hy', hv⟩ := anyMem_exists h2
      exact ⟨y', List.mem_cons_of_mem y hy', hv⟩

/-- Members of a wellformed list of values are wellformed. -/
theorem WFList_mem {l : List Value} (h : WFList l = true) {u : Value}
    (hu : u ∈ l) : WF u = true := by
  induction l with
  | nil => cases hu
  | cons y ys ih =>
    simp only [WFList, Bool.and_eq_true] at h
    rcases List.mem_cons.mp hu with rfl | hu'
    · exact h.1
    · exact ih h.2 hu'

/-- The remainder of an extraction is a sublist of the original list. -/
theorem extractMatch_sublist {x : Value} :
    ∀ {ys : List Value} {z : Value} {rest : List Value},
      extractMatch x ys = some (z, rest) → rest.Sublist ys
  | [], _, _, h => by simp [extractMatch] at h
  | y :: ys, z, rest, h => by
    by_cases hxy : veq x y = true
    · simp only [extractMatch, hxy, if_true] at h
      obtain ⟨_, hr⟩ := Prod.mk.injEq .. ▸ Option.some.inj h
      exact hr ▸ List.sublist_cons_self y ys
    · simp only [extractMatch, hxy, if_false] at h
      cases hrec : extractMatch x ys with
      | none => rw [hrec] at h; exact Option.noConfusion h
      | some p =>
        obtain ⟨z', rest'⟩ := p
        rw [hrec] at h
        obtain ⟨_, hr⟩ := Prod.mk.injEq .. ▸ Option.some.inj h
        exact hr ▸ List.Sublist.cons₂ y (extractMatch_sublist hrec)

/-- A sublist never has a larger `sizeOf` than its container. -/
theorem sublist_sizeOf_le : ∀ {l1 l2 : List Value}, l1.Sublist l2 →
    sizeOf l1 ≤ sizeOf l2
  | _, _, List.Sublist.slnil => le_refl _
  | _, _, List.Sublist.cons a h => by
    have := sublist_sizeOf_le h
    have ha : 0 ≤ sizeOf a := Nat.zero_le _
    simp only [List.cons.sizeOf_spec]
    omega
  | _, _, List.Sublist.cons₂ a h => by
    have := sublist_sizeOf_le h
    simp only [List.cons.sizeOf_spec]
    omega

/-- Core containment argument for `HashSet` semantics: fix two universes
of elements `X` (left) and `Y` (right) over which value equality is
symmetric, transitive in the `X`-`Y`-`X` pattern, and hash-respecting.
Then for duplicate-free lists drawn from them, equal length plus
one-sided containment forces containment in the other direction and an
equal XOR fold of the element hashes. -/
theorem setContainment_main (X Y : List Value)
    (symm2 : ∀ u v, u ∈ X → v ∈ Y → veq u v = true → veq v u = true)
    (trans2 : ∀ u v w2 xs1, (u :: xs1).Sublist X → w2 ∈ xs1 → v ∈ Y →
      veq u v = true → veq v w2 = true → veq u w2 = true)
    (hasheq : ∀ u v, u ∈ X → v ∈ Y → veq u v = true →
      hfinish (hstream u) = hfinish (hstream v)) :
    ∀ xs ys, xs.Sublist X → ys.Sublist Y → nodupBy xs = true →
      nodupBy ys = true → xs.length = ys.length → allMem xs ys = true →
      allMem ys xs = true ∧ setAcc xs = setAcc ys
  | [], ys, _, _, _, _, hlen, _ => by
    have hy : ys = [] := List.length_eq_zero.mp hlen.symm
    subst hy
    exact ⟨by simp [allMem], rfl⟩
  | x :: xs', ys, hsubX, hsubY, hndx, hndy, hlen, hcont => by
    simp only [allMem, Bool.and_eq_true] at hcont
    obtain ⟨hx_ys, hxs'_ys⟩ := hcont
    obtain ⟨z, rest, hex⟩ := extractMatch_of_anyMem hx_ys
    have hxz : veq x z = true := extractMatch_veq hex
    have hzY : z ∈ Y := hsubY.subset (extractMatch_mem hex)
    have hxX : x ∈ X := hsubX.subset (List.mem_cons_self x xs')
    have hrestY : rest.Sublist Y := (extractMatch_sublist hex).trans hsubY
    have hxs'X : xs'.Sublist X := (List.sublist_cons_self x xs').trans hsubX
    simp only [nodupBy, Bool.and_eq_true, Bool.not_eq_true'] at hndx
    obtain ⟨hxnot, hndx'⟩ := hndx
    have hcont' : allMem xs' rest = true := by
      apply allMem_of_forall_mem
      intro u hu
      have humem : anyMem u ys = true := allMem_mem hxs'_ys hu
      rcases extractMatch_anyMem_or hex humem with huz | hur
      · exfalso
        have huX : u ∈ X := hxs'X.subset hu
        have hzu : veq z u = true := symm2 u z huX hzY huz
        have hxu : veq x u = true := trans2 x z u xs' hsubX hu hzY hxz hzu
        have : anyMem x xs' = true := anyMem_of_mem hu hxu
        rw [hxnot] at this
        exact Bool.noConfusion this
      · exact hur
    have hlen' : xs'.length = rest.length := by
      have := extractMatch_len hex
      simp only [List.length_cons] at hlen
      omega
    have hrec := setContainment_main X Y symm2 trans2 hasheq xs' rest hxs'X hrestY
      hndx' (extractMatch_nodup hex hndy) hlen' hcont'
    refine ⟨?backward, ?acc⟩
    case backward =>
      apply allMem_of_forall_mem
      intro u hu
      rcases extractMatch_mem_or hex u hu with rfl | hur
      · have : veq u x = true := symm2 x u hxX hzY hxz
        simp [anyMem, this]
      · have := allMem_mem hrec.1 hur
        exact anyMem_cons_right u x xs' this
    case acc =>
      show Nat.xor (hfinish (hstream x)) (setAcc xs') = setAcc ys
      rw [extractMatch_setAcc hex, hasheq x z hxX hzY hxz, hrec.2]

/-- Elementwise list equality is symmetric once it is on the elements. -/
theorem veqList_symm_param : ∀ (as bs : List Value),
    (∀ u v, u ∈ as → v ∈ bs → veq u v = true → veq v u = true) →
    veqList as bs = true → veqList bs as = true
  | [], [], _, _ => by simp [veqList]
  | [], _ :: _, _, h => by simp [veqList] at h
  | _ :: _, [], _, h => by simp [veqList] at h
  | a :: as, b :: bs, hp, h => by
    simp only [veqList, Bool.and_eq_true] at h ⊢
    refine ⟨hp a b (List.mem_cons_self a as) (List.mem_cons_self b bs) h.1, ?tl⟩
    exact veqList_symm_param as bs
      (fun u v hu hv => hp u v (List.mem_cons_of_mem a hu) (List.mem_cons_of_mem b hv)) h.2

/-- Elementwise list equality is transitive once it is on the
elements. -/
theorem veqList_trans_param : ∀ (as bs cs : List Value),
    (∀ u v w2, u ∈ as → v ∈ bs → w2 ∈ cs → veq u v = true →
      veq v w2 = true → veq u w2 = true) →
    veqList as bs = true → veqList bs cs = true → veqList as cs = true
  | [], [], [], _, _, _ => by simp [veqList]
  | [], _ :: _, _, _, h, _ => by simp [veqList] at h
  | _ :: _, [], _, _, h, _ => by simp [veqList] at h
  | _ :: _, _ :: _, [], _, _, h => by simp [veqList] at h
  | [], [], _ :: _, _, _, h => by simp [veqList] at h
  | a :: as, b :: bs, c :: cs, hp, h1, h2 => by
    simp only [veqList, Bool.and_eq_true] at h1 h2 ⊢
    refine ⟨hp a b c (List.mem_cons_self a as) (List.mem_cons_self b bs)
      (List.mem_cons_self c cs) h1.1 h2.1, ?tl⟩
    exact veqList_trans_param as bs cs
      (fun u v w2 hu hv hw2 => hp u v w2 (List.mem_cons_of_mem a hu)
        (List.mem_cons_of_mem b hv) (List.mem_cons_of_mem c hw2)) h1.2 h2.2

/-- Equal lists produce equal hash streams once the elements do. -/
theorem hstreamList_param : ∀ (as bs : List Value),
    (∀ u v, u ∈ as → v ∈ bs → veq u v = true → hstream u = hstream v) →
    veqList as bs = true → hstreamList as = hstreamList bs
  | [], [], _, _ => rfl
  | [], _ :: _, _, h => by simp [veqList] at h
  | _ :: _, [], _, h => by simp [veqList] at h
  | a :: as, b :: bs, hp, h => by
    simp only [veqList, Bool.and_eq_true] at h
    show hstream a ++ hstreamList as = hstream b ++ hstreamList bs
    rw [hp a b (List.mem_cons_self a as) (List.mem_cons_self b bs) h.1]
    rw [hstreamList_param as bs
      (fun u v hu hv => hp u v (List.mem_cons_of_mem a hu) (List.mem_cons_of_mem b hv)) h.2]


/-- Value equality on wellformed values is symmetric and transitive, and
equal values produce identical hash streams; proved simultaneously by
strong induction on size (the set cases feed `setContainment_main` with
the inductive hypotheses on strictly smaller elements). -/
theorem veqMain (n : Nat) :
    (∀ a b : Value, sizeOf a + sizeOf b ≤ n → WF a = true → WF b = true →
      veq a b = true → veq b a = true) ∧
    (∀ a b c : Value, sizeOf a + sizeOf b + sizeOf c ≤ n → WF a = true →
      WF b = true → WF c = true → veq a b = true → veq b c = true →
      veq a c = true) ∧
    (∀ a b : Value, sizeOf a + sizeOf b ≤ n → WF a = true → WF b = true →
      veq a b = true → hstream a = hstream b) := by
  induction n using Nat.strong_induction_on with
  | _ n IH =>
  refine ⟨?symmPart, ?transPart, ?hashPart⟩
  case symmPart =>
    intro a b hsz hwa hwb hab
    cases a <;> cases b <;> simp only [veq, Bool.false_eq_true] at hab
    case int.int i j =>
      obtain rfl := eq_of_beq hab
      simp [veq]
    case float.float x y =>
      obtain rfl := eq_of_beq hab
      simp [veq]
    case bool.bool x y =>
      obtain rfl := eq_of_beq hab
      simp [veq]
    case str.str x y =>
      obtain rfl := eq_of_beq hab
      simp [veq]
    case list.list as bs =>
      simp only [veq]
      simp only [WF] at hwa hwb
      have hsz2 : sizeOf (Value.list as) + sizeOf (Value.list bs) ≤ n := hsz
      simp only [Value.list.sizeOf_spec] at hsz2
      refine veqList_symm_param as bs ?hps hab
      intro u v hu hv huv
      have h1 := List.sizeOf_lt_of_mem hu
      have h2 := List.sizeOf_lt_of_mem hv
      exact (IH (sizeOf u + sizeOf v) (by omega)).1 u v le_rfl
        (WFList_mem hwa hu) (WFList_mem hwb hv) huv
    case set.set xs ys =>
      simp only [Bool.and_eq_true] at hab
      obtain ⟨hlenb, hall⟩ := hab
      have hlen : xs.length = ys.length := Nat.eq_of_beq_eq_true hlenb
      simp only [veq, Bool.and_eq_true]
      simp only [WF, Bool.and_eq_true] at hwa hwb
      have hsz2 : sizeOf (Value.set xs) + sizeOf (Value.set ys) ≤ n := hsz
      simp only [Value.set.sizeOf_spec] at hsz2
      have symm2 : ∀ u v, u ∈ xs → v ∈ ys → veq u v = true → veq v u = true := by
        intro u v hu hv huv
        have h1 := List.sizeOf_lt_of_mem hu
        have h2 := List.sizeOf_lt_of_mem hv
        exact (IH (sizeOf u + sizeOf v) (by omega)).1 u v le_rfl
          (WFList_mem hwa.2 hu) (WFList_mem hwb.2 hv) huv
      have trans2 : ∀ u v w2 xs1, (u :: xs1).Sublist xs → w2 ∈ xs1 → v ∈ ys →
          veq u v = true → veq v w2 = true → veq u w2 = true := by
        intro u v w2 xs1 hsub hw2 hv huv hvw2
        have h1 : sizeOf (u :: xs1) ≤ sizeOf xs := sublist_sizeOf_le hsub
        have h1b : sizeOf (u :: xs1) = 1 + sizeOf u + sizeOf xs1 := by
          simp [List.cons.sizeOf_spec]
        have h2 := List.sizeOf_lt_of_mem hw2
        have h3 := List.sizeOf_lt_of_mem hv
        have huxs : u ∈ xs := hsub.subset (List.mem_cons_self u xs1)
        have hw2xs : w2 ∈ xs := hsub.subset (List.mem_cons_of_mem u hw2)
        exact (IH (sizeOf u + sizeOf v + sizeOf w2) (by omega)).2.1 u v w2 le_rfl
          (WFList_mem hwa.2 huxs) (WFList_mem hwb.2 hv) (WFList_mem hwa.2 hw2xs) huv hvw2
      have hasheq : ∀ u v, u ∈ xs → v ∈ ys → veq u v = true →
          hfinish (hstream u) = hfinish (hstream v) := by
        intro u v hu hv huv
        have h1 := List.sizeOf_lt_of_mem hu
        have h2 := List.sizeOf_lt_of_mem hv
        have := (IH (sizeOf u + sizeOf v) (by omega)).2.2 u v le_rfl
          (WFList_mem hwa.2 hu) (WFList_mem hwb.2 hv) huv
        rw [this]
      have hmain := setContainment_main xs ys symm2 trans2 hasheq xs ys
        (List.Sublist.refl xs) (List.Sublist.refl ys) hwa.1 hwb.1 hlen hall
      refine ⟨?lenb, hmain.1⟩
      case lenb => rw [hlen]; exact Nat.beq_refl ys.length
  case transPart =>
    intro a b c hsz hwa hwb hwc hab hbc
    cases a <;> cases b <;> simp only [veq, Bool.false_eq_true] at hab
    case int.int i j =>
      cases c <;> simp only [veq, Bool.false_eq_true] at hbc
      case int k =>
        obtain rfl := eq_of_beq hab
        obtain rfl := eq_of_beq hbc
        simp [veq]
    case float.float x y =>
      cases c <;> simp only [veq, Bool.false_eq_true] at hbc
      case float z =>
        obtain rfl := eq_of_beq hab
        obtain rfl := eq_of_beq hbc
        simp [veq]
    case bool.bool x y =>
      cases c <;> simp only [veq, Bool.false_eq_true] at hbc
      case bool z =>
        obtain rfl := eq_of_beq hab
        obtain rfl := eq_of_beq hbc
        simp [veq]
    case str.str x y =>
      cases c <;> simp only [veq, Bool.false_eq_true] at hbc
      case str z =>
        obtain rfl := eq_of_beq hab
        obtain rfl := eq_of_beq hbc
        simp [veq]
    case list.list as bs =>
      cases c <;> simp only [veq, Bool.false_eq_true] at hbc
      case list cs =>
        simp only [veq]
        simp only [WF] at hwa hwb hwc
        have hsz2 : sizeOf (Value.list as) + sizeOf (Value.list bs)
            + sizeOf (Value.list cs) ≤ n := hsz
        simp only [Value.list.sizeOf_spec] at hsz2
        refine veqList_trans_param as bs cs ?hpt hab hbc
        intro u v w2 hu hv hw2 huv hvw2
        have h1 := List.sizeOf_lt_of_mem hu
        have h2 := List.sizeOf_lt_of_mem hv
        have h3 := List.sizeOf_lt_of_mem hw2
        exact (IH (sizeOf u + sizeOf v + sizeOf w2) (by omega)).2.1 u v w2 le_rfl
          (WFList_mem hwa hu) (WFList_mem hwb hv) (WFList_mem hwc hw2) huv hvw2
    case set.set xs ys =>
      cases c <;> simp only [veq, Bool.false_eq_true] at hbc
      case set zs =>
        simp only [Bool.and_eq_true] at hab hbc
        obtain ⟨hl1, ha1⟩ := hab
        obtain ⟨hl2, ha2⟩ := hbc
        simp only [veq, Bool.and_eq_true]
        simp only [WF, Bool.and_eq_true] at hwa hwb hwc
        have hsz2 : sizeOf (Value.set xs) + sizeOf (Value.set ys)
            + sizeOf (Value.set zs) ≤ n := hsz
        simp only [Value.set.sizeOf_spec] at hsz2
        refine ⟨?lent, ?allc⟩
        case lent =>
          rw [Nat.eq_of_beq_eq_true hl1, Nat.eq_of_beq_eq_true hl2]
          exact Nat.beq_refl zs.length
        case allc =>
          apply allMem_of_forall_mem
          intro u hu
          obtain ⟨y, hy, huy⟩ := anyMem_exists (allMem_mem ha1 hu)
          obtain ⟨z, hz, hyz⟩ := anyMem_exists (allMem_mem ha2 hy)
          have h1 := List.sizeOf_lt_of_mem hu
          have h2 := List.sizeOf_lt_of_mem hy
          have h3 := List.sizeOf_lt_of_mem hz
          have huz : veq u z = true :=
            (IH (sizeOf u + sizeOf y + sizeOf z) (by omega)).2.1 u y z le_rfl
              (WFList_mem hwa.2 hu) (WFList_mem hwb.2 hy) (WFList_mem hwc.2 hz) huy hyz
          exact anyMem_of_mem hz huz
  case hashPart =>
    intro a b hsz hwa hwb hab
    cases a <;> cases b <;> simp only [veq, Bool.false_eq_true] at hab
    case int.int i j =>
      obtain rfl := eq_of_beq hab
      rfl
    case float.float x y =>
      obtain rfl := eq_of_beq hab
      rfl
    case bool.bool x y =>
      obtain rfl := eq_of_beq hab
      rfl
    case str.str x y =>
      obtain rfl := eq_of_beq hab
      rfl
    case list.list as bs =>
      simp only [WF] at hwa hwb
      have hsz2 : sizeOf (Value.list as) + sizeOf (Value.list bs) ≤ n := hsz
      simp only [Value.list.sizeOf_spec] at hsz2
      show hstreamList as = hstreamList bs
      refine hstreamList_param as bs ?hph hab
      intro u v hu hv huv
      have h1 := List.sizeOf_lt_of_mem hu
      have h2 := List.sizeOf_lt_of_mem hv
      exact (IH (sizeOf u + sizeOf v) (by omega)).2.2 u v le_rfl
        (WFList_mem hwa hu) (WFList_mem hwb hv) huv
    case set.set xs ys =>
      simp only [Bool.and_eq_true] at hab
      obtain ⟨hlenb, hall⟩ := hab
      have hlen : xs.length = ys.length := Nat.eq_of_beq_eq_true hlenb
      simp only [WF, Bool.and_eq_true] at hwa hwb
      have hsz2 : sizeOf (Value.set xs) + sizeOf (Value.set ys) ≤ n := hsz
      simp only [Value.set.sizeOf_spec] at hsz2
      have symm2 : ∀ u v, u ∈ xs → v ∈ ys → veq u v = true → veq v u = true := by
        intro u v hu hv huv
        have h1 := List.sizeOf_lt_of_mem hu
        have h2 := List.sizeOf_lt_of_mem hv
        exact (IH (sizeOf u + sizeOf v) (by omega)).1 u v le_rfl
          (WFList_mem hwa.2 hu) (WFList_mem hwb.2 hv) huv
      have trans2 : ∀ u v w2 xs1, (u :: xs1).Sublist xs → w2 ∈ xs1 → v ∈ ys →
          veq u v = true → veq v w2 = true → veq u w2 = true := by
        intro u v w2 xs1 hsub hw2 hv huv hvw2
        have h1 : sizeOf (u :: xs1) ≤ sizeOf xs := sublist_sizeOf_le hsub
        have h1b : sizeOf (u :: xs1) = 1 + sizeOf u + sizeOf xs1 := by
          simp [List.cons.sizeOf_spec]
        have h2 := List.sizeOf_lt_of_mem hw2
        have h3 := List.sizeOf_lt_of_mem hv
        have huxs : u ∈ xs := hsub.subset (List.mem_cons_self u xs1)
        have hw2xs : w2 ∈ xs := hsub.subset (List.mem_cons_of_mem u hw2)
        exact (IH (sizeOf u + sizeOf v + sizeOf w2) (by omega)).2.1 u v w2 le_rfl
          (WFList_mem hwa.2 huxs) (WFList_mem hwb.2 hv) (WFList_mem hwa.2 hw2xs) huv hvw2
      have hasheq : ∀ u v, u ∈ xs → v ∈ ys → veq u v = true →
          hfinish (hstream u) = hfinish (hstream v) := by
        intro u v hu hv huv
        have h1 := List.sizeOf_lt_of_mem hu
        have h2 := List.sizeOf_lt_of_mem hv
        have := (IH (sizeOf u + sizeOf v) (by omega)).2.2 u v le_rfl
          (WFList_mem hwa.2 hu) (WFList_mem hwb.2 hv) huv
        rw [this]
      have hmain := setContainment_main xs ys symm2 trans2 hasheq xs ys
        (List.Sublist.refl xs) (List.Sublist.refl ys) hwa.1 hwb.1 hlen hall
      show [setAcc xs] = [setAcc ys]
      rw [hmain.2]

/-- C7: Equality/hash consistency — for all wellformed values `a` and
`b` (wellformed meaning every set payload is duplicate-free, the
invariant `HashSet` maintains for every value the program constructs),
`equals(a,b) = true` implies `hash(a) = hash(b)`, recursively through
nested List and Set values. -/
theorem C7_eq_implies_hash_eq (a b : Value) (ha : WF a = true)
    (hb : WF b = true) (h : veq a b = true) : hashV a = hashV b := by
  have hs := (veqMain (sizeOf a + sizeOf b)).2.2 a b le_rfl ha hb h
  show hfinish (hstream a) = hfinish (hstream b)
  rw [hs]

/-- Concrete instance of `C7_eq_implies_hash_eq` on values with a nested
set, equal up to set reordering. -/
theorem C7_eq_implies_hash_eq_witness :
    WF (Value.set [Value.int 1, Value.set [Value.int 2, Value.int 3]]) = true ∧
    WF (Value.set [Value.set [Value.int 3, Value.int 2], Value.int 1]) = true ∧
    veq (Value.set [Value.int 1, Value.set [Value.int 2, Value.int 3]])
        (Value.set [Value.set [Value.int 3, Value.int 2], Value.int 1]) = true ∧
    hashV (Value.set [Value.int 1, Value.set [Value.int 2, Value.int 3]])
      = hashV (Value.set [Value.set [Value.int 3, Value.int 2], Value.int 1]) :=
  ⟨by simp [WF, WFList, nodupBy, anyMem, veq],
   by simp [WF, WFList, nodupBy, anyMem, veq],
   by simp [veq, allMem, anyMem],
   C7_eq_implies_hash_eq _ _
     (by simp [WF, WFList, nodupBy, anyMem, veq])
     (by simp [WF, WFList, nodupBy, anyMem, veq])
     (by simp [veq, allMem, anyMem])⟩
